import Mathlib

/-!
Shallow embedding of the core of the proactivity toolkit: the token-bucket
RateLimiter (src/src/RateLimiter.ts) and the bounded-concurrency TaskQueue
(src/unnamed/part_000), together with proofs of the specified properties.

Modelling conventions:
- Timestamps and durations are `Nat` milliseconds (`Date.now()` is a
  non-negative integer-valued clock; each public operation is modelled with a
  single `now` sample, the standard discretisation of the handful of
  `Date.now()` calls inside one synchronous block).
- Token counts are `Int`, so the lower bound `0 <= tokens` is a genuine proof
  obligation, as in the JavaScript `number` field.
- The optional `minDelayMs` config field is a `Nat` where `0` encodes both
  `undefined` and `0`, exactly matching the truthiness test
  `if (this.config.minDelayMs)` in the source, which treats both as absent.
-/

/-- Construction-time configuration of `RateLimiter` (`config` in the source).
`minDelayMs = 0` encodes a missing/falsy `minDelayMs`. -/
structure RLConfig where
  tokensPerInterval : Int
  intervalMs : Nat
  minDelayMs : Nat
  deriving Repr, DecidableEq

/-- Mutable state of a `RateLimiter` instance: `tokens`, `lastRefill`,
`lastAcquire` (the latter initialised to `0` in the class body). -/
structure RLState where
  tokens : Int
  lastRefill : Nat
  lastAcquire : Nat
  deriving Repr, DecidableEq

/-- The constructor: `tokens = config.tokensPerInterval`,
`lastRefill = Date.now()`, `lastAcquire = 0`. -/
def RateLimiter.init (cfg : RLConfig) (now : Nat) : RLState :=
  { tokens := cfg.tokensPerInterval, lastRefill := now, lastAcquire := 0 }

/-- `private refill()`: if `elapsed >= intervalMs`, add
`floor(elapsed / intervalMs) * tokensPerInterval` tokens capped at
`tokensPerInterval` and set `lastRefill = now`; otherwise do nothing. -/
def RateLimiter.refill (cfg : RLConfig) (s : RLState) (now : Nat) : RLState :=
  let elapsed := now - s.lastRefill
  if cfg.intervalMs ≤ elapsed then
    let intervals := elapsed / cfg.intervalMs
    { s with
      tokens := min cfg.tokensPerInterval (s.tokens + (intervals : Int) * cfg.tokensPerInterval),
      lastRefill := now }
  else s

/-- `tryAcquire()`: refill, then if `tokens >= 1`: deny when a configured
`minDelayMs` has not elapsed since `lastAcquire`, otherwise consume one token,
set `lastAcquire = now` and admit; if `tokens < 1`, deny. Returns the boolean
result and the updated state. -/
def RateLimiter.tryAcquire (cfg : RLConfig) (s : RLState) (now : Nat) : Bool × RLState :=
  let s1 := RateLimiter.refill cfg s now
  if 1 ≤ s1.tokens then
    if cfg.minDelayMs ≠ 0 ∧ now - s1.lastAcquire < cfg.minDelayMs then
      (false, s1)
    else
      (true, { s1 with tokens := s1.tokens - 1, lastAcquire := now })
  else
    (false, s1)

/-- `getTokens()`: refill, then return `tokens` without consuming one. -/
def RateLimiter.getTokens (cfg : RLConfig) (s : RLState) (now : Nat) : Int × RLState :=
  let s1 := RateLimiter.refill cfg s now
  (s1.tokens, s1)

/-- Outcome of one iteration of the `while (true)` loop in `acquire()`:
either the token was consumed and the loop returns, or the iteration suspends
(`await this.sleep(ms)`) in the spacing branch or the empty-bucket branch and
retries. The carried state is the state at the suspension point. -/
inductive AcqResult where
  | acquired (s : RLState)
  | sleepSpacing (ms : Nat) (s : RLState)
  | sleepRefill (ms : Nat) (s : RLState)
  deriving Repr, DecidableEq

/-- One iteration of the loop body of `acquire()`: refill; if a configured
`minDelayMs` has not elapsed, sleep for the remaining spacing time; else if
`tokens >= 1`, consume the token, set `lastAcquire = now` and return; else
sleep for `max(intervalMs - (now - lastRefill), 100)`. -/
def RateLimiter.acquireStep (cfg : RLConfig) (s : RLState) (now : Nat) : AcqResult :=
  let s1 := RateLimiter.refill cfg s now
  if cfg.minDelayMs ≠ 0 ∧ now - s1.lastAcquire < cfg.minDelayMs then
    AcqResult.sleepSpacing (cfg.minDelayMs - (now - s1.lastAcquire)) s1
  else if 1 ≤ s1.tokens then
    AcqResult.acquired { s1 with tokens := s1.tokens - 1, lastAcquire := now }
  else
    AcqResult.sleepRefill (max (cfg.intervalMs - (now - s1.lastRefill)) 100) s1

/-- The full `acquire()` loop, driven by the list of clock values observed at
the start of its successive iterations: `none` means the supplied schedule of
iterations was exhausted before admission, `some s` means the loop returned
with final state `s`. -/
def RateLimiter.acquireRun (cfg : RLConfig) (s : RLState) : List Nat → Option RLState
  | [] => none
  | now :: rest =>
    match RateLimiter.acquireStep cfg s now with
    | AcqResult.acquired s1 => some s1
    | AcqResult.sleepSpacing _ s1 => RateLimiter.acquireRun cfg s1 rest
    | AcqResult.sleepRefill _ s1 => RateLimiter.acquireRun cfg s1 rest

/-- State carried at the end of one `acquire()` iteration, whichever branch
was taken. -/
def AcqResult.state : AcqResult → RLState
  | AcqResult.acquired s => s
  | AcqResult.sleepSpacing _ s => s
  | AcqResult.sleepRefill _ s => s

/-- One public `RateLimiter` operation together with the clock value at which
it runs: a `tryAcquire()` call, a `getTokens()` call, or one iteration of the
`acquire()` loop. -/
inductive RLOp where
  | tryAcq (now : Nat)
  | getT (now : Nat)
  | acqStep (now : Nat)
  deriving Repr, DecidableEq

/-- State transition of a single `RLOp`. -/
def RateLimiter.applyOp (cfg : RLConfig) (s : RLState) : RLOp → RLState
  | RLOp.tryAcq now => (RateLimiter.tryAcquire cfg s now).2
  | RLOp.getT now => (RateLimiter.getTokens cfg s now).2
  | RLOp.acqStep now => (RateLimiter.acquireStep cfg s now).state

/-- State after running a sequence of `RateLimiter` operations. -/
def RateLimiter.runOps (cfg : RLConfig) (s : RLState) (ops : List RLOp) : RLState :=
  ops.foldl (RateLimiter.applyOp cfg) s

/-- `n` consecutive `tryAcquire()` calls at the same clock value, returning
the list of results in order and the final state. -/
def RateLimiter.tryN (cfg : RLConfig) (s : RLState) (now : Nat) : Nat → List Bool × RLState
  | 0 => ([], s)
  | n + 1 =>
    let r := RateLimiter.tryAcquire cfg s now
    let rest := RateLimiter.tryN cfg r.2 now n
    (r.1 :: rest.1, rest.2)

/-- Construction-time configuration of `TaskQueue`: `concurrency` and
`delayMs` after the constructor's defaulting (`options.concurrency || 1`,
`options.delayMs || 0`). `delayMs` only lengthens the pause inside a
completion event and plays no part in the scheduling state, so it is carried
but unused by the transitions. -/
structure TQConfig where
  concurrency : Nat
  delayMs : Nat
  deriving Repr, DecidableEq

/-- Outcome of a work item: the value its promise resolves with, or the error
it rejects with. -/
def TQOutcome := Except String Nat

instance : DecidableEq TQOutcome := fun a b =>
  match a, b with
  | Except.ok x, Except.ok y =>
    if h : x = y then Decidable.isTrue (congrArg Except.ok h)
    else Decidable.isFalse (fun hc => h (Except.ok.inj hc))
  | Except.error x, Except.error y =>
    if h : x = y then Decidable.isTrue (congrArg Except.error h)
    else Decidable.isFalse (fun hc => h (Except.error.inj hc))
  | Except.ok _, Except.error _ => Decidable.isFalse (fun hc => Except.noConfusion hc)
  | Except.error _, Except.ok _ => Decidable.isFalse (fun hc => Except.noConfusion hc)

/-- State of a `TaskQueue` instance. `queue` holds the ids of pending items in
arrival order (`this.queue`), `running` is the in-flight counter
(`this.running`). The remaining fields are observation ghosts that record what
the closures do: `started` lists ids in the order their wrapped tasks began
executing, `inflight` lists ids started but not yet finished, and `settled`
records, in order, each item's promise settlement `(id, outcome)` produced by
the `resolve(result)` / `reject(err)` in `add`'s try/catch wrapper. -/
structure TQState where
  queue : List Nat
  running : Int
  started : List Nat
  inflight : List Nat
  settled : List (Nat × TQOutcome)
  deriving DecidableEq

/-- A fresh `TaskQueue`: empty queue, `running = 0`, nothing observed. -/
def TaskQueue.initState : TQState :=
  { queue := [], running := 0, started := [], inflight := [], settled := [] }

/-- The synchronous prefix of `private process()`: if
`running >= concurrency || queue.length === 0`, return without change;
otherwise increment `running` and shift the head of `queue`, which begins
executing (the `else { this.running-- }` arm for a missing shifted task is
unreachable because the length check and the shift are in the same synchronous
block; its net effect would be the unchanged state). -/
def TaskQueue.stepProcess (c : TQConfig) (s : TQState) : TQState :=
  if (c.concurrency : Int) ≤ s.running ∨ s.queue.length = 0 then s
  else
    match s.queue with
    | [] => s
    | t :: rest =>
      { s with
        queue := rest
        running := s.running + 1
        started := s.started ++ [t]
        inflight := s.inflight ++ [t] }

/-- `add(task)`: push the wrapped task at the tail of `queue`, then call
`process()`. Enqueuing itself never blocks and always succeeds. -/
def TaskQueue.addItem (c : TQConfig) (s : TQState) (id : Nat) : TQState :=
  TaskQueue.stepProcess c { s with queue := s.queue ++ [id] }

/-- Completion of the in-flight item `id`, whose action's outcome is `f id`:
the wrapper's try/catch settles the item's own promise with that outcome
(resolve on success, reject on failure) and never itself throws, so the
continuation of `process()` always runs: optional `delayMs` pause, decrement
`running`, and call `process()` again. -/
def TaskQueue.finishItem (c : TQConfig) (f : Nat → TQOutcome) (s : TQState) (id : Nat) :
    TQState :=
  TaskQueue.stepProcess c
    { s with
      running := s.running - 1
      inflight := s.inflight.erase id
      settled := s.settled ++ [(id, f id)] }

/-- An externally visible event in a `TaskQueue` history: a caller adds item
`id`, or the in-flight item `id` completes. -/
inductive TQEvent where
  | add (id : Nat)
  | finish (id : Nat)
  deriving Repr, DecidableEq

/-- Transition of a single event. -/
def TaskQueue.step (c : TQConfig) (f : Nat → TQOutcome) (s : TQState) : TQEvent → TQState
  | TQEvent.add id => TaskQueue.addItem c s id
  | TQEvent.finish id => TaskQueue.finishItem c f s id

/-- State after a history of events. -/
def TaskQueue.run (c : TQConfig) (f : Nat → TQOutcome) (s : TQState)
    (tr : List TQEvent) : TQState :=
  tr.foldl (TaskQueue.step c f) s

/-- A history is valid when every `finish id` event completes an item that is
actually in flight at that point: in the source, the `running--` and the
re-schedule run in the continuation of the very `process()` call that started
that item, so completions can only come from started, unfinished items. -/
def TaskQueue.validFrom (c : TQConfig) (f : Nat → TQOutcome) (s : TQState) :
    List TQEvent → Bool
  | [] => true
  | e :: tr =>
    (match e with
     | TQEvent.add _ => true
     | TQEvent.finish id => s.inflight.contains id) &&
    TaskQueue.validFrom c f (TaskQueue.step c f s e) tr

/-- The ids added by a history, in arrival order. -/
def addsOf : List TQEvent → List Nat
  | [] => []
  | TQEvent.add id :: tr => id :: addsOf tr
  | TQEvent.finish _ :: tr => addsOf tr

/-- The scheduling-relevant part of the state: everything except the record of
promise settlements. -/
def TaskQueue.core (s : TQState) : List Nat × Int × List Nat × List Nat :=
  (s.queue, s.running, s.started, s.inflight)

/-- The loop guard of `drain()`: `queue.length > 0 || running > 0`. -/
def TaskQueue.busy (s : TQState) : Bool :=
  decide (0 < s.queue.length) || decide (0 < s.running)

/-- The `drain()` loop over the sequence of states it observes at its
successive checks (other callers may mutate the queue between polls): at each
check, if the queue is busy, sleep 100 ms and poll again, else return. The
result is `some ws` with `ws` the list of sleep durations performed before
returning, or `none` if the loop was still polling when the supplied
observations ran out. -/
def TaskQueue.drainPoll : List TQState → Option (List Nat)
  | [] => none
  | s :: rest =>
    if TaskQueue.busy s then (TaskQueue.drainPoll rest).map (fun ws => 100 :: ws)
    else some []

/-- C1: after the refill recomputation, `tryAcquire` returns true iff
`tokens >= 1` and (`minDelayMs` is not configured or the elapsed time since
`lastAcquire` is at least `minDelayMs`); on success it decrements `tokens` by
exactly one and sets `lastAcquire = now`; on denial the state is exactly the
refilled state, with `tokens` and `lastAcquire` untouched. -/
theorem tryAcquire_admission_spec (cfg : RLConfig) (s : RLState) (now : Nat) :
    ((RateLimiter.tryAcquire cfg s now).1 = true ↔
      1 ≤ (RateLimiter.refill cfg s now).tokens ∧
        (cfg.minDelayMs = 0 ∨
          cfg.minDelayMs ≤ now - (RateLimiter.refill cfg s now).lastAcquire)) ∧
    ((RateLimiter.tryAcquire cfg s now).1 = true →
      (RateLimiter.tryAcquire cfg s now).2.tokens
          = (RateLimiter.refill cfg s now).tokens - 1 ∧
      (RateLimiter.tryAcquire cfg s now).2.lastAcquire = now ∧
      (RateLimiter.tryAcquire cfg s now).2.lastRefill
          = (RateLimiter.refill cfg s now).lastRefill) ∧
    ((RateLimiter.tryAcquire cfg s now).1 = false →
      (RateLimiter.tryAcquire cfg s now).2 = RateLimiter.refill cfg s now) := by
  unfold RateLimiter.tryAcquire
  by_cases htok : 1 ≤ (RateLimiter.refill cfg s now).tokens
  · by_cases hsp : cfg.minDelayMs ≠ 0 ∧
        now - (RateLimiter.refill cfg s now).lastAcquire < cfg.minDelayMs
    · simp [htok, hsp]
    · simp [htok, hsp]
      omega
  · simp [htok]

/-- C3: the refill step. If the elapsed time since `lastRefill` is at least
`intervalMs`, it adds `floor(elapsed / intervalMs) * tokensPerInterval` tokens
capped at `tokensPerInterval` and sets `lastRefill` to `now` itself (not to
the last whole-interval boundary); if the elapsed time is smaller it changes
nothing. -/
theorem refill_whole_intervals_spec (cfg : RLConfig) (s : RLState) (now : Nat)
    (_hpos : 0 < cfg.intervalMs) (_hmono : s.lastRefill ≤ now) :
    (cfg.intervalMs ≤ now - s.lastRefill →
      RateLimiter.refill cfg s now =
        { tokens := min cfg.tokensPerInterval
            (s.tokens + (((now - s.lastRefill) / cfg.intervalMs : Nat) : Int)
              * cfg.tokensPerInterval)
          lastRefill := now
          lastAcquire := s.lastAcquire }) ∧
    (now - s.lastRefill < cfg.intervalMs → RateLimiter.refill cfg s now = s) := by
  constructor
  · intro h
    simp [RateLimiter.refill, h]
  · intro h
    have hn : ¬ cfg.intervalMs ≤ now - s.lastRefill := by omega
    simp [RateLimiter.refill, hn]

/-- C3 witness: a limiter with capacity 5 and a 100 ms interval, polled 250 ms
after the last refill, banks two whole intervals capped at capacity and moves
`lastRefill` to 250. -/
theorem refill_whole_intervals_spec_witness :
    RateLimiter.refill ⟨5, 100, 0⟩ ⟨2, 0, 0⟩ 250 =
      { tokens := 5, lastRefill := 250, lastAcquire := 0 } := by
  have h :=
    (refill_whole_intervals_spec ⟨5, 100, 0⟩ ⟨2, 0, 0⟩ 250 (by decide) (by decide)).1
      (by decide)
  rw [h]
  decide

/-- The bucket invariant of the data model: `0 <= tokens <= capacity`. -/
def RLInv (cfg : RLConfig) (s : RLState) : Prop :=
  0 ≤ s.tokens ∧ s.tokens ≤ cfg.tokensPerInterval

lemma refill_inv (cfg : RLConfig) (s : RLState) (now : Nat)
    (hcap : 0 ≤ cfg.tokensPerInterval) (h : RLInv cfg s) :
    RLInv cfg (RateLimiter.refill cfg s now) := by
  obtain ⟨h0, h1⟩ := h
  by_cases hc : cfg.intervalMs ≤ now - s.lastRefill
  · simp only [RateLimiter.refill, if_pos hc]
    refine ⟨le_min hcap ?_, min_le_left _ _⟩
    exact add_nonneg h0 (mul_nonneg (Int.natCast_nonneg _) hcap)
  · simp only [RateLimiter.refill, if_neg hc]
    exact ⟨h0, h1⟩

lemma tryAcquire_snd_tokens (cfg : RLConfig) (s : RLState) (now : Nat) :
    (RateLimiter.tryAcquire cfg s now).2.tokens = (RateLimiter.refill cfg s now).tokens ∨
    ((RateLimiter.tryAcquire cfg s now).2.tokens = (RateLimiter.refill cfg s now).tokens - 1 ∧
      1 ≤ (RateLimiter.refill cfg s now).tokens) := by
  unfold RateLimiter.tryAcquire
  by_cases h1 : 1 ≤ (RateLimiter.refill cfg s now).tokens
  · by_cases h2 : cfg.minDelayMs ≠ 0 ∧
        now - (RateLimiter.refill cfg s now).lastAcquire < cfg.minDelayMs
    · simp [h1, h2]
    · simp [h1, h2]
  · simp [h1]

lemma acquireStep_state_tokens (cfg : RLConfig) (s : RLState) (now : Nat) :
    (RateLimiter.acquireStep cfg s now).state.tokens
        = (RateLimiter.refill cfg s now).tokens ∨
    ((RateLimiter.acquireStep cfg s now).state.tokens
        = (RateLimiter.refill cfg s now).tokens - 1 ∧
      1 ≤ (RateLimiter.refill cfg s now).tokens) := by
  unfold RateLimiter.acquireStep
  by_cases h2 : cfg.minDelayMs ≠ 0 ∧
      now - (RateLimiter.refill cfg s now).lastAcquire < cfg.minDelayMs
  · simp [h2, AcqResult.state]
  · by_cases h1 : 1 ≤ (RateLimiter.refill cfg s now).tokens
    · simp [h1, h2, AcqResult.state]
    · simp [h1, h2, AcqResult.state]

lemma applyOp_inv (cfg : RLConfig) (s : RLState) (op : RLOp)
    (hcap : 0 ≤ cfg.tokensPerInterval) (h : RLInv cfg s) :
    RLInv cfg (RateLimiter.applyOp cfg s op) := by
  cases op with
  | tryAcq now =>
    obtain ⟨q0, q1⟩ := refill_inv cfg s now hcap h
    have hgoal : 0 ≤ (RateLimiter.tryAcquire cfg s now).2.tokens ∧
        (RateLimiter.tryAcquire cfg s now).2.tokens ≤ cfg.tokensPerInterval := by
      rcases tryAcquire_snd_tokens cfg s now with he | ⟨he, hge⟩ <;> omega
    exact hgoal
  | getT now =>
    exact refill_inv cfg s now hcap h
  | acqStep now =>
    obtain ⟨q0, q1⟩ := refill_inv cfg s now hcap h
    have hgoal : 0 ≤ (RateLimiter.acquireStep cfg s now).state.tokens ∧
        (RateLimiter.acquireStep cfg s now).state.tokens ≤ cfg.tokensPerInterval := by
      rcases acquireStep_state_tokens cfg s now with he | ⟨he, hge⟩ <;> omega
    exact hgoal

lemma runOps_inv (cfg : RLConfig) (ops : List RLOp) (s : RLState)
    (hcap : 0 ≤ cfg.tokensPerInterval) (h : RLInv cfg s) :
    RLInv cfg (RateLimiter.runOps cfg s ops) := by
  induction ops generalizing s with
  | nil => exact h
  | cons op rest ih =>
    exact ih (RateLimiter.applyOp cfg s op) (applyOp_inv cfg s op hcap h)

/-- C2: for every sequence of `tryAcquire` / `getTokens` / `acquire`
iterations at arbitrary times, starting from a freshly constructed limiter,
`0 <= tokens <= capacity` holds at every observation point (every prefix of
the history is itself such a sequence). -/
theorem tokens_bound_invariant (cfg : RLConfig) (t0 : Nat) (ops : List RLOp)
    (hcap : 0 < cfg.tokensPerInterval) :
    RLInv cfg (RateLimiter.runOps cfg (RateLimiter.init cfg t0) ops) := by
  apply runOps_inv cfg ops _ (le_of_lt hcap)
  exact ⟨le_of_lt hcap, le_refl _⟩

/-- C2 witness: the bound holds after a concrete mixed history on a fresh
limiter of capacity 3. -/
theorem tokens_bound_invariant_witness :
    RLInv ⟨3, 100, 10⟩
      (RateLimiter.runOps ⟨3, 100, 10⟩ (RateLimiter.init ⟨3, 100, 10⟩ 0)
        [RLOp.tryAcq 5, RLOp.acqStep 120, RLOp.getT 130, RLOp.tryAcq 260]) :=
  tokens_bound_invariant ⟨3, 100, 10⟩ 0
    [RLOp.tryAcq 5, RLOp.acqStep 120, RLOp.getT 130, RLOp.tryAcq 260] (by decide)

/-- C4 counterexample: with `intervalMs = 1000`, an empty bucket and 50 ms
remaining until the next refill, the code suspends for
`Math.max(timeUntilRefill, 100) = 100` ms, not the lesser of the remaining
time and the floor (`min 50 100 = 50`): the claim's `lesser` is wrong. -/
theorem acquire_wait_lesser_counterexample :
    RateLimiter.acquireStep ⟨1, 1000, 0⟩ ⟨0, 0, 0⟩ 950 =
      AcqResult.sleepRefill 100 ⟨0, 0, 0⟩ ∧
    min (1000 - (950 - (RateLimiter.refill ⟨1, 1000, 0⟩ ⟨0, 0, 0⟩ 950).lastRefill)) 100
      = 50 ∧
    (100 : Nat) ≠ 50 := by
  decide

lemma acquireStep_acquired_inv (cfg : RLConfig) (s sf : RLState) (now : Nat)
    (h : RateLimiter.acquireStep cfg s now = AcqResult.acquired sf) :
    1 ≤ (RateLimiter.refill cfg s now).tokens ∧
    sf.tokens = (RateLimiter.refill cfg s now).tokens - 1 := by
  simp only [RateLimiter.acquireStep] at h
  by_cases h2 : cfg.minDelayMs ≠ 0 ∧
      now - (RateLimiter.refill cfg s now).lastAcquire < cfg.minDelayMs
  · simp [h2] at h
  · simp only [if_neg h2] at h
    by_cases h1 : 1 ≤ (RateLimiter.refill cfg s now).tokens
    · simp only [if_pos h1] at h
      injection h with h3
      rw [← h3]
      exact ⟨h1, rfl⟩
    · simp [h1] at h

lemma acquireStep_spacing_inv (cfg : RLConfig) (s s1 : RLState) (now d : Nat)
    (h : RateLimiter.acquireStep cfg s now = AcqResult.sleepSpacing d s1) :
    cfg.minDelayMs ≠ 0 ∧
    now - (RateLimiter.refill cfg s now).lastAcquire < cfg.minDelayMs ∧
    d = cfg.minDelayMs - (now - (RateLimiter.refill cfg s now).lastAcquire) := by
  simp only [RateLimiter.acquireStep] at h
  by_cases h2 : cfg.minDelayMs ≠ 0 ∧
      now - (RateLimiter.refill cfg s now).lastAcquire < cfg.minDelayMs
  · simp only [if_pos h2] at h
    injection h with hd hs
    exact ⟨h2.1, h2.2, hd.symm⟩
  · simp only [if_neg h2] at h
    by_cases h1 : 1 ≤ (RateLimiter.refill cfg s now).tokens
    · simp [h1] at h
    · simp [h1] at h

lemma acquireStep_refillwait_inv (cfg : RLConfig) (s s1 : RLState) (now d : Nat)
    (h : RateLimiter.acquireStep cfg s now = AcqResult.sleepRefill d s1) :
    d = max (cfg.intervalMs - (now - (RateLimiter.refill cfg s now).lastRefill)) 100 := by
  simp only [RateLimiter.acquireStep] at h
  by_cases h2 : cfg.minDelayMs ≠ 0 ∧
      now - (RateLimiter.refill cfg s now).lastAcquire < cfg.minDelayMs
  · simp [h2] at h
  · simp only [if_neg h2] at h
    by_cases h1 : 1 ≤ (RateLimiter.refill cfg s now).tokens
    · simp [h1] at h
    · simp only [if_neg h1] at h
      injection h with hd hs
      exact hd.symm

/-- C4 amended: on a denial due to an empty bucket (`tokens < 1` after the
refill and no spacing violation), the computed suspension duration is the
GREATER of the time remaining until the next refill and the fixed 100 ms
floor wait, `max(intervalMs - (now - lastRefill), 100)`. -/
theorem acquire_wait_empty_bucket_spec (cfg : RLConfig) (s : RLState) (now : Nat)
    (hsp : ¬(cfg.minDelayMs ≠ 0 ∧
      now - (RateLimiter.refill cfg s now).lastAcquire < cfg.minDelayMs))
    (htok : (RateLimiter.refill cfg s now).tokens < 1) :
    RateLimiter.acquireStep cfg s now =
      AcqResult.sleepRefill
        (max (cfg.intervalMs - (now - (RateLimiter.refill cfg s now).lastRefill)) 100)
        (RateLimiter.refill cfg s now) := by
  have h1 : ¬ 1 ≤ (RateLimiter.refill cfg s now).tokens := by omega
  simp only [RateLimiter.acquireStep, if_neg hsp, if_neg h1]

/-- C4 witness: empty bucket, 700 ms remaining until refill, so the loop
suspends for `max(700, 100) = 700` ms. -/
theorem acquire_wait_empty_bucket_spec_witness :
    RateLimiter.acquireStep ⟨1, 1000, 0⟩ ⟨0, 0, 0⟩ 300 =
      AcqResult.sleepRefill
        (max (1000 - (300 - (RateLimiter.refill ⟨1, 1000, 0⟩ ⟨0, 0, 0⟩ 300).lastRefill)) 100)
        (RateLimiter.refill ⟨1, 1000, 0⟩ ⟨0, 0, 0⟩ 300) :=
  acquire_wait_empty_bucket_spec ⟨1, 1000, 0⟩ ⟨0, 0, 0⟩ 300 (by decide) (by decide)

/-- C5: whenever the `acquire()` loop returns, some iteration admitted with at
least one token available and consumed exactly one; and every sleep duration
computed in a retry branch is strictly positive and bounded (by `minDelayMs`
for the spacing branch, by `max(intervalMs, 100)` for the empty-bucket
branch), so no retry branch busy-loops with a zero or negative wait. -/
theorem acquire_consumes_one_token_and_waits_bounded (cfg : RLConfig) :
    (∀ (s sf : RLState) (times : List Nat),
      RateLimiter.acquireRun cfg s times = some sf →
      ∃ (s0 : RLState) (now : Nat),
        RateLimiter.acquireStep cfg s0 now = AcqResult.acquired sf ∧
        1 ≤ (RateLimiter.refill cfg s0 now).tokens ∧
        sf.tokens = (RateLimiter.refill cfg s0 now).tokens - 1) ∧
    (∀ (s0 s1 : RLState) (now d : Nat),
      RateLimiter.acquireStep cfg s0 now = AcqResult.sleepSpacing d s1 →
      0 < d ∧ d ≤ cfg.minDelayMs) ∧
    (∀ (s0 s1 : RLState) (now d : Nat),
      RateLimiter.acquireStep cfg s0 now = AcqResult.sleepRefill d s1 →
      0 < d ∧ d ≤ max cfg.intervalMs 100) := by
  refine ⟨?_, ?_, ?_⟩
  · intro s sf times
    induction times generalizing s with
    | nil => intro h; simp [RateLimiter.acquireRun] at h
    | cons now rest ih =>
      intro h
      cases hstep : RateLimiter.acquireStep cfg s now with
      | acquired s1 =>
        rw [RateLimiter.acquireRun, hstep] at h
        obtain ⟨hge, hdec⟩ := acquireStep_acquired_inv cfg s s1 now hstep
        have hsf : s1 = sf := by injection h
        exact ⟨s, now, hsf ▸ hstep, hge, hsf ▸ hdec⟩
      | sleepSpacing d s1 =>
        rw [RateLimiter.acquireRun, hstep] at h
        exact ih s1 h
      | sleepRefill d s1 =>
        rw [RateLimiter.acquireRun, hstep] at h
        exact ih s1 h
  · intro s0 s1 now d h
    obtain ⟨hne, hlt, hd⟩ := acquireStep_spacing_inv cfg s0 s1 now d h
    omega
  · intro s0 s1 now d h
    have hd := acquireStep_refillwait_inv cfg s0 s1 now d h
    omega

/-- C5 witness: a one-iteration run that consumes the single token, a spacing
sleep of 40 ms (positive, at most the 50 ms spacing), and an empty-bucket
sleep of 700 ms (positive, at most `max(1000, 100)`). -/
theorem acquire_consumes_one_token_witness :
    (∃ (s0 : RLState) (now : Nat),
      RateLimiter.acquireStep ⟨1, 100, 0⟩ s0 now =
        AcqResult.acquired ⟨0, 0, 5⟩ ∧
      1 ≤ (RateLimiter.refill ⟨1, 100, 0⟩ s0 now).tokens ∧
      (RLState.mk 0 0 5).tokens = (RateLimiter.refill ⟨1, 100, 0⟩ s0 now).tokens - 1) ∧
    (0 < 40 ∧ 40 ≤ (50 : Nat)) ∧
    (0 < 700 ∧ 700 ≤ max 1000 (100 : Nat)) := by
  refine ⟨?_, ?_, ?_⟩
  · exact (acquire_consumes_one_token_and_waits_bounded ⟨1, 100, 0⟩).1
      ⟨1, 0, 0⟩ ⟨0, 0, 5⟩ [5] (by decide)
  · exact (acquire_consumes_one_token_and_waits_bounded ⟨1, 100, 50⟩).2.1
      ⟨1, 0, 20⟩ ⟨1, 0, 20⟩ 30 40 (by decide)
  · exact (acquire_consumes_one_token_and_waits_bounded ⟨1, 1000, 0⟩).2.2
      ⟨0, 0, 0⟩ ⟨0, 0, 0⟩ 300 700 (by decide)

/-- C10 counterexample: a fresh limiter with capacity 2 and
`minDelayMs = 5`, polled twice at clock value 10 (which is at least
`minDelayMs`), admits the first call but denies the second on spacing, so the
claimed `c` immediate consecutive successes fail. -/
theorem fresh_burst_counterexample :
    (5 : Nat) ≤ 10 ∧
    (RateLimiter.tryN ⟨2, 1000, 5⟩ (RateLimiter.init ⟨2, 1000, 5⟩ 0) 10 2).1
      = [true, false] ∧
    [true, false] ≠ List.replicate 2 true := by
  decide

lemma tryN_all_true (cfg : RLConfig) (now : Nat) (hmd : cfg.minDelayMs = 0) :
    ∀ (n : Nat) (s : RLState), (n : Int) ≤ s.tokens →
      now - s.lastRefill < cfg.intervalMs →
      (RateLimiter.tryN cfg s now n).1 = List.replicate n true := by
  intro n
  induction n with
  | zero => intro s _ _; simp [RateLimiter.tryN]
  | succ k ih =>
    intro s hn hr
    have hrn : ¬ cfg.intervalMs ≤ now - s.lastRefill := by omega
    have hrefill : RateLimiter.refill cfg s now = s := by
      simp only [RateLimiter.refill, if_neg hrn]
    have htok : 1 ≤ s.tokens := by
      have : (0 : Int) ≤ (k : Int) := Int.natCast_nonneg k
      push_cast at hn
      omega
    have hstep : RateLimiter.tryAcquire cfg s now =
        (true, { s with tokens := s.tokens - 1, lastAcquire := now }) := by
      simp [RateLimiter.tryAcquire, hrefill, htok, hmd]
    simp only [RateLimiter.tryN, hstep, List.replicate_succ, List.cons.injEq, true_and]
    apply ih
    · push_cast at hn ⊢
      omega
    · exact hr

lemma tryAcquire_true_of (cfg : RLConfig) (s : RLState) (now : Nat)
    (htk : 1 ≤ (RateLimiter.refill cfg s now).tokens)
    (hns : ¬(cfg.minDelayMs ≠ 0 ∧
      now - (RateLimiter.refill cfg s now).lastAcquire < cfg.minDelayMs)) :
    RateLimiter.tryAcquire cfg s now =
      (true, { RateLimiter.refill cfg s now with
        tokens := (RateLimiter.refill cfg s now).tokens - 1
        lastAcquire := now }) := by
  simp only [RateLimiter.tryAcquire, if_pos htk, if_neg hns]

lemma refill_init_fires (cfg : RLConfig) (t0 now : Nat)
    (hcap0 : 0 ≤ cfg.tokensPerInterval) (hcase : cfg.intervalMs ≤ now - t0) :
    RateLimiter.refill cfg (RateLimiter.init cfg t0) now =
      ⟨cfg.tokensPerInterval, now, 0⟩ := by
  have hmin : min cfg.tokensPerInterval
      (cfg.tokensPerInterval +
        (((now - t0) / cfg.intervalMs : Nat) : Int) * cfg.tokensPerInterval)
      = cfg.tokensPerInterval := by
    apply min_eq_left
    have h := mul_nonneg (Int.natCast_nonneg ((now - t0) / cfg.intervalMs)) hcap0
    omega
  simp only [RateLimiter.refill, RateLimiter.init]
  rw [if_pos hcase, hmin]

lemma refill_init_idle (cfg : RLConfig) (t0 now : Nat)
    (hcase : ¬ cfg.intervalMs ≤ now - t0) :
    RateLimiter.refill cfg (RateLimiter.init cfg t0) now = RateLimiter.init cfg t0 := by
  simp only [RateLimiter.refill, RateLimiter.init]
  rw [if_neg hcase]

/-- C10 amended: at construction `tokens = capacity` and `lastAcquire = 0`,
so, provided the clock value is at least `minDelayMs`, the first admission
attempt is never denied on spacing grounds; and when `minDelayMs` is NOT
configured, a fresh limiter with capacity `c` admits `c` immediate
consecutive `tryAcquire` calls (with `minDelayMs` configured, the second
immediate call is denied on spacing, as the counterexample shows). -/
theorem fresh_limiter_burst_spec (cfg : RLConfig) (t0 now : Nat) (c : Nat)
    (hcap : cfg.tokensPerInterval = (c : Int)) (hc : 1 ≤ c)
    (hpos : 0 < cfg.intervalMs) (_hmono : t0 ≤ now) :
    (RateLimiter.init cfg t0).tokens = cfg.tokensPerInterval ∧
    (RateLimiter.init cfg t0).lastAcquire = 0 ∧
    (cfg.minDelayMs ≤ now →
      (RateLimiter.tryAcquire cfg (RateLimiter.init cfg t0) now).1 = true) ∧
    (cfg.minDelayMs = 0 →
      (RateLimiter.tryN cfg (RateLimiter.init cfg t0) now c).1
        = List.replicate c true) := by
  have hcap0 : 0 ≤ cfg.tokensPerInterval := by
    rw [hcap]; exact Int.natCast_nonneg c
  have htok1 : 1 ≤ cfg.tokensPerInterval := by
    rw [hcap]; exact_mod_cast hc
  refine ⟨rfl, rfl, ?_, ?_⟩
  · intro hsp
    by_cases hcase : cfg.intervalMs ≤ now - t0
    · have hfull := refill_init_fires cfg t0 now hcap0 hcase
      have htk : 1 ≤ (RateLimiter.refill cfg (RateLimiter.init cfg t0) now).tokens := by
        rw [hfull]; exact htok1
      have hns : ¬(cfg.minDelayMs ≠ 0 ∧
          now - (RateLimiter.refill cfg (RateLimiter.init cfg t0) now).lastAcquire
            < cfg.minDelayMs) := by
        rw [hfull]; simp only []; omega
      rw [tryAcquire_true_of cfg (RateLimiter.init cfg t0) now htk hns]
    · have hid := refill_init_idle cfg t0 now hcase
      have htk : 1 ≤ (RateLimiter.refill cfg (RateLimiter.init cfg t0) now).tokens := by
        rw [hid]; exact htok1
      have hns : ¬(cfg.minDelayMs ≠ 0 ∧
          now - (RateLimiter.refill cfg (RateLimiter.init cfg t0) now).lastAcquire
            < cfg.minDelayMs) := by
        rw [hid]; simp only [RateLimiter.init]; omega
      rw [tryAcquire_true_of cfg (RateLimiter.init cfg t0) now htk hns]
  · intro hmd
    by_cases hcase : cfg.intervalMs ≤ now - t0
    · -- the first call refills the bucket and moves lastRefill to now
      have hfull := refill_init_fires cfg t0 now hcap0 hcase
      obtain ⟨k, rfl⟩ : ∃ k, c = k + 1 := ⟨c - 1, by omega⟩
      have htk : 1 ≤ (RateLimiter.refill cfg (RateLimiter.init cfg t0) now).tokens := by
        rw [hfull]; exact htok1
      have hns : ¬(cfg.minDelayMs ≠ 0 ∧
          now - (RateLimiter.refill cfg (RateLimiter.init cfg t0) now).lastAcquire
            < cfg.minDelayMs) := by
        rw [hmd]; simp
      have hstep := tryAcquire_true_of cfg (RateLimiter.init cfg t0) now htk hns
      rw [hfull] at hstep
      simp only [RateLimiter.tryN, hstep, List.replicate_succ, List.cons.injEq, true_and]
      apply tryN_all_true cfg now hmd k ⟨cfg.tokensPerInterval - 1, now, now⟩
      · show (k : Int) ≤ cfg.tokensPerInterval - 1
        rw [hcap]
        push_cast
        omega
      · show now - now < cfg.intervalMs
        omega
    · -- the elapsed time stayed under the interval: no refill happens
      have hlt : now - t0 < cfg.intervalMs := by omega
      apply tryN_all_true cfg now hmd c (RateLimiter.init cfg t0)
      · show (c : Int) ≤ cfg.tokensPerInterval
        rw [hcap]
      · show now - t0 < cfg.intervalMs
        exact hlt

/-- C10 witness: with capacity 2, no configured spacing, constructed at 0 and
polled at 10, both immediate calls are admitted. -/
theorem fresh_limiter_burst_spec_witness :
    (RateLimiter.init ⟨2, 1000, 0⟩ 0).tokens
        = (⟨2, 1000, 0⟩ : RLConfig).tokensPerInterval ∧
    (RateLimiter.init ⟨2, 1000, 0⟩ 0).lastAcquire = 0 ∧
    ((⟨2, 1000, 0⟩ : RLConfig).minDelayMs ≤ 10 →
      (RateLimiter.tryAcquire ⟨2, 1000, 0⟩ (RateLimiter.init ⟨2, 1000, 0⟩ 0) 10).1
        = true) ∧
    ((⟨2, 1000, 0⟩ : RLConfig).minDelayMs = 0 →
      (RateLimiter.tryN ⟨2, 1000, 0⟩ (RateLimiter.init ⟨2, 1000, 0⟩ 0) 10 2).1
        = List.replicate 2 true) :=
  fresh_limiter_burst_spec ⟨2, 1000, 0⟩ 0 10 2 rfl (by decide) (by decide) (by decide)

lemma stepProcess_cases (c : TQConfig) (s : TQState) :
    TaskQueue.stepProcess c s = s ∨
    (s.running < (c.concurrency : Int) ∧
      ∃ t rest, s.queue = t :: rest ∧
        TaskQueue.stepProcess c s =
          { queue := rest, running := s.running + 1, started := s.started ++ [t],
            inflight := s.inflight ++ [t], settled := s.settled }) := by
  unfold TaskQueue.stepProcess
  by_cases hg : (c.concurrency : Int) ≤ s.running ∨ s.queue.length = 0
  · left
    rw [if_pos hg]
  · rw [if_neg hg]
    push_neg at hg
    obtain ⟨hrun, hlen⟩ := hg
    right
    refine ⟨hrun, ?_⟩
    cases hq : s.queue with
    | nil => exact absurd (by rw [hq]; rfl) hlen
    | cons t rest => exact ⟨t, rest, rfl, rfl⟩

/-- The in-flight accounting invariant: `running` counts exactly the items
started but not finished, and never exceeds the concurrency limit. -/
def TQInv (c : TQConfig) (s : TQState) : Prop :=
  s.running = (s.inflight.length : Int) ∧ s.running ≤ (c.concurrency : Int)

lemma stepProcess_inv (c : TQConfig) (s : TQState) (h : TQInv c s) :
    TQInv c (TaskQueue.stepProcess c s) := by
  rcases stepProcess_cases c s with heq | ⟨hrun, t, rest, hq, heq⟩
  · rw [heq]; exact h
  · rw [heq]
    obtain ⟨h1, h2⟩ := h
    constructor
    · show s.running + 1 = (((s.inflight ++ [t]).length : Nat) : Int)
      simp only [List.length_append, List.length_cons, List.length_nil]
      push_cast
      omega
    · show s.running + 1 ≤ (c.concurrency : Int)
      omega

lemma addItem_inv (c : TQConfig) (s : TQState) (id : Nat) (h : TQInv c s) :
    TQInv c (TaskQueue.addItem c s id) := by
  apply stepProcess_inv
  exact h

lemma finishItem_inv (c : TQConfig) (f : Nat → TQOutcome) (s : TQState) (id : Nat)
    (hmem : id ∈ s.inflight) (h : TQInv c s) :
    TQInv c (TaskQueue.finishItem c f s id) := by
  apply stepProcess_inv
  obtain ⟨h1, h2⟩ := h
  have hlen : (s.inflight.erase id).length = s.inflight.length - 1 :=
    List.length_erase_of_mem hmem
  have hpos : 1 ≤ s.inflight.length := List.length_pos.mpr (by
    intro hnil
    rw [hnil] at hmem
    exact absurd hmem (List.not_mem_nil id))
  constructor
  · show s.running - 1 = ((s.inflight.erase id).length : Int)
    rw [hlen]
    push_cast [hpos]
    omega
  · show s.running - 1 ≤ (c.concurrency : Int)
    omega

lemma run_inv (c : TQConfig) (f : Nat → TQOutcome) :
    ∀ (tr : List TQEvent) (s : TQState),
      TaskQueue.validFrom c f s tr = true → TQInv c s →
      TQInv c (TaskQueue.run c f s tr) := by
  intro tr
  induction tr with
  | nil => intro s _ h; exact h
  | cons e rest ih =>
    intro s hv h
    simp only [TaskQueue.validFrom, Bool.and_eq_true] at hv
    obtain ⟨hve, hvr⟩ := hv
    have hstep : TQInv c (TaskQueue.step c f s e) := by
      cases e with
      | add id => exact addItem_inv c s id h
      | finish id =>
        apply finishItem_inv c f s id _ h
        simpa using hve
    exact ih (TaskQueue.step c f s e) hvr hstep

/-- C6: over every valid history of `add` calls and item completions from a
fresh queue, `0 <= running <= concurrency` holds at every observation point
(every prefix of a valid history is valid); and the scheduling step starts a
new item only when `running < concurrency` and the pending queue is
non-empty. -/
theorem inflight_bound_invariant (c : TQConfig) (f : Nat → TQOutcome)
    (tr : List TQEvent)
    (hvalid : TaskQueue.validFrom c f TaskQueue.initState tr = true) :
    (0 ≤ (TaskQueue.run c f TaskQueue.initState tr).running ∧
      (TaskQueue.run c f TaskQueue.initState tr).running ≤ (c.concurrency : Int)) ∧
    (∀ s : TQState, TaskQueue.stepProcess c s ≠ s →
      s.running < (c.concurrency : Int) ∧ s.queue ≠ []) := by
  constructor
  · have hinit : TQInv c TaskQueue.initState := by
      constructor
      · rfl
      · exact Int.natCast_nonneg c.concurrency
    obtain ⟨h1, h2⟩ := run_inv c f tr TaskQueue.initState hvalid hinit
    constructor
    · rw [h1]
      exact Int.natCast_nonneg _
    · exact h2
  · intro s hne
    rcases stepProcess_cases c s with heq | ⟨hrun, t, rest, hq, heq⟩
    · exact absurd heq hne
    · exact ⟨hrun, by rw [hq]; exact List.cons_ne_nil t rest⟩

/-- C6 witness: a valid history on a queue with concurrency limit 1, and a
state from which the scheduler does start an item. -/
theorem inflight_bound_invariant_witness :
    ((0 ≤ (TaskQueue.run ⟨1, 0⟩ (fun _ => Except.ok 0) TaskQueue.initState
        [TQEvent.add 0, TQEvent.add 1, TQEvent.finish 0]).running ∧
      (TaskQueue.run ⟨1, 0⟩ (fun _ => Except.ok 0) TaskQueue.initState
        [TQEvent.add 0, TQEvent.add 1, TQEvent.finish 0]).running ≤
          ((⟨1, 0⟩ : TQConfig).concurrency : Int))) ∧
    (TaskQueue.stepProcess ⟨1, 0⟩ ⟨[3], 0, [], [], []⟩ ≠ ⟨[3], 0, [], [], []⟩ →
      (0 : Int) < ((⟨1, 0⟩ : TQConfig).concurrency : Int) ∧ ([3] : List Nat) ≠ []) := by
  constructor
  · exact (inflight_bound_invariant ⟨1, 0⟩ (fun _ => Except.ok 0)
      [TQEvent.add 0, TQEvent.add 1, TQEvent.finish 0] (by decide)).1
  · exact (inflight_bound_invariant ⟨1, 0⟩ (fun _ => Except.ok 0)
      [TQEvent.add 0, TQEvent.add 1, TQEvent.finish 0] (by decide)).2
      ⟨[3], 0, [], [], []⟩

lemma stepProcess_started_queue (c : TQConfig) (s : TQState) :
    (TaskQueue.stepProcess c s).started ++ (TaskQueue.stepProcess c s).queue =
      s.started ++ s.queue := by
  rcases stepProcess_cases c s with heq | ⟨hrun, t, rest, hq, heq⟩
  · rw [heq]
  · rw [heq, hq]
    simp

lemma run_started_queue (c : TQConfig) (f : Nat → TQOutcome) :
    ∀ (tr : List TQEvent) (s : TQState),
      (TaskQueue.run c f s tr).started ++ (TaskQueue.run c f s tr).queue =
        s.started ++ s.queue ++ addsOf tr := by
  intro tr
  induction tr with
  | nil => intro s; simp [TaskQueue.run, addsOf]
  | cons e rest ih =>
    intro s
    have hrun : TaskQueue.run c f s (e :: rest) =
        TaskQueue.run c f (TaskQueue.step c f s e) rest := rfl
    rw [hrun, ih]
    cases e with
    | add id =>
      show (TaskQueue.addItem c s id).started ++ (TaskQueue.addItem c s id).queue ++
          addsOf rest = s.started ++ s.queue ++ addsOf (TQEvent.add id :: rest)
      rw [TaskQueue.addItem, stepProcess_started_queue]
      simp [addsOf]
    | finish id =>
      show (TaskQueue.finishItem c f s id).started ++
          (TaskQueue.finishItem c f s id).queue ++ addsOf rest =
          s.started ++ s.queue ++ addsOf (TQEvent.finish id :: rest)
      rw [TaskQueue.finishItem, stepProcess_started_queue]
      simp [addsOf]

/-- C7: items start in strict FIFO arrival order: after any history from a
fresh queue, the ids already started followed by the ids still pending equal
the ids added, in arrival order (so the start order is always a prefix of the
arrival order, for any concurrency limit, in particular 1); and whenever the
scheduling step starts an item it removes exactly the head of the pending
queue and appends it to the started sequence. -/
theorem fifo_start_order (c : TQConfig) (f : Nat → TQOutcome) (tr : List TQEvent) :
    (TaskQueue.run c f TaskQueue.initState tr).started ++
      (TaskQueue.run c f TaskQueue.initState tr).queue = addsOf tr ∧
    (∀ s : TQState, TaskQueue.stepProcess c s ≠ s →
      ∃ t rest, s.queue = t :: rest ∧
        (TaskQueue.stepProcess c s).started = s.started ++ [t] ∧
        (TaskQueue.stepProcess c s).queue = rest) := by
  constructor
  · have h := run_started_queue c f tr TaskQueue.initState
    simpa [TaskQueue.initState] using h
  · intro s hne
    rcases stepProcess_cases c s with heq | ⟨hrun, t, rest, hq, heq⟩
    · exact absurd heq hne
    · exact ⟨t, rest, hq, by rw [heq], by rw [heq]⟩

/-- C7 witness: three items added with concurrency limit 1; one starts, two
stay pending, and together they list the arrival order 5, 7, 9; from a state
with pending head 3 the scheduler removes exactly that head. -/
theorem fifo_start_order_witness :
    (TaskQueue.run ⟨1, 0⟩ (fun _ => Except.ok 0) TaskQueue.initState
        [TQEvent.add 5, TQEvent.add 7, TQEvent.add 9]).started ++
      (TaskQueue.run ⟨1, 0⟩ (fun _ => Except.ok 0) TaskQueue.initState
        [TQEvent.add 5, TQEvent.add 7, TQEvent.add 9]).queue =
      addsOf [TQEvent.add 5, TQEvent.add 7, TQEvent.add 9] ∧
    (∃ t rest, ([3, 4] : List Nat) = t :: rest ∧
      (TaskQueue.stepProcess ⟨2, 0⟩ ⟨[3, 4], 0, [], [], []⟩).started = [] ++ [t] ∧
      (TaskQueue.stepProcess ⟨2, 0⟩ ⟨[3, 4], 0, [], [], []⟩).queue = rest) := by
  constructor
  · exact (fifo_start_order ⟨1, 0⟩ (fun _ => Except.ok 0)
      [TQEvent.add 5, TQEvent.add 7, TQEvent.add 9]).1
  · exact (fifo_start_order ⟨2, 0⟩ (fun _ => Except.ok 0) []).2
      ⟨[3, 4], 0, [], [], []⟩ (by decide)

lemma stepProcess_settled (c : TQConfig) (s : TQState) :
    (TaskQueue.stepProcess c s).settled = s.settled := by
  rcases stepProcess_cases c s with heq | ⟨hrun, t, rest, hq, heq⟩ <;> rw [heq]

lemma stepProcess_core_congr (c : TQConfig) (sa sb : TQState)
    (h : TaskQueue.core sa = TaskQueue.core sb) :
    TaskQueue.core (TaskQueue.stepProcess c sa) =
      TaskQueue.core (TaskQueue.stepProcess c sb) := by
  obtain ⟨hq, hr, hs, hi⟩ : sa.queue = sb.queue ∧ sa.running = sb.running ∧
      sa.started = sb.started ∧ sa.inflight = sb.inflight := by
    simpa [TaskQueue.core, Prod.ext_iff] using h
  unfold TaskQueue.stepProcess
  rw [hq, hr, hs, hi]
  by_cases hguard : (c.concurrency : Int) ≤ sb.running ∨ sb.queue.length = 0
  · rw [if_pos hguard, if_pos hguard]
    exact h
  · rw [if_neg hguard, if_neg hguard]
    cases hq2 : sb.queue with
    | nil => exact h
    | cons t rest => simp [TaskQueue.core]

/-- C8: a failing work item is isolated. The wrapper installed by `add` runs
the action inside try/catch and settles only that item's own promise
(`resolve` on success, `reject` on failure), so the wrapper itself never
throws and the continuation of `process()` — the optional delay, the
`running--` and the re-schedule — runs on every path. Formally: the
scheduling core (pending queue, `running`, start order, in-flight set) after
any event is identical under any two outcome environments, in particular when
one makes the item fail and the other makes it succeed; a completion appends
exactly the one settlement `(id, f id)` for the finishing item, leaving every
earlier settlement unchanged; and an `add` settles nothing. -/
theorem failure_isolation (c : TQConfig) (f g : Nat → TQOutcome) (s : TQState)
    (e : TQEvent) :
    TaskQueue.core (TaskQueue.step c f s e) = TaskQueue.core (TaskQueue.step c g s e) ∧
    (∀ id : Nat, (TaskQueue.finishItem c f s id).settled = s.settled ++ [(id, f id)]) ∧
    (∀ id : Nat, (TaskQueue.addItem c s id).settled = s.settled) := by
  refine ⟨?_, ?_, ?_⟩
  · cases e with
    | add id => rfl
    | finish id =>
      apply stepProcess_core_congr
      rfl
  · intro id
    rw [TaskQueue.finishItem, stepProcess_settled]
  · intro id
    rw [TaskQueue.addItem, stepProcess_settled]

/-- The `drain()` loop returns at a check exactly when the queue is idle at
that check; it performs fixed 100 ms sleeps between checks; and on an already
idle queue it returns at once with no sleep (the model of the loop body is a
pure observation, mirroring the source, whose body contains only the timer). -/
theorem drain_exactly_when_idle :
    (∀ (s : TQState) (rest : List TQState), TaskQueue.busy s = false →
      TaskQueue.drainPoll (s :: rest) = some []) ∧
    (∀ (obs : List TQState) (ws : List Nat),
      TaskQueue.drainPoll obs = some ws →
      ws = List.replicate ws.length 100 ∧
      ∃ pre x post, obs = pre ++ x :: post ∧ pre.length = ws.length ∧
        (∀ y ∈ pre, TaskQueue.busy y = true) ∧ TaskQueue.busy x = false) ∧
    (∀ s : TQState, 0 ≤ s.running →
      (TaskQueue.busy s = false ↔ (s.queue = [] ∧ s.running = 0))) := by
  refine ⟨?_, ?_, ?_⟩
  · intro s rest h
    rw [TaskQueue.drainPoll]
    simp [h]
  · intro obs
    induction obs with
    | nil => intro ws h; rw [TaskQueue.drainPoll] at h; exact absurd h (by simp)
    | cons s rest ih =>
      intro ws h
      rw [TaskQueue.drainPoll] at h
      cases hb : TaskQueue.busy s with
      | false =>
        rw [hb] at h
        simp only [Bool.false_eq_true, if_false, Option.some.injEq] at h
        subst h
        exact ⟨rfl, [], s, rest, rfl, rfl, by simp, hb⟩
      | true =>
        rw [hb] at h
        simp only [if_true] at h
        cases hpoll : TaskQueue.drainPoll rest with
        | none => rw [hpoll] at h; exact absurd h (by simp)
        | some ws2 =>
          rw [hpoll] at h
          simp only [Option.map_some', Option.some.injEq] at h
          subst h
          obtain ⟨hrep, pre, x, post, hobs, hlen, hall, hx⟩ := ih ws2 hpoll
          refine ⟨?_, s :: pre, x, post, by rw [hobs]; rfl, by simp [hlen], ?_, hx⟩
          · simp only [List.length_cons, List.replicate_succ, List.cons.injEq,
              true_and]
            exact hrep
          · intro y hy
            rcases List.mem_cons.mp hy with hy | hy
            · rw [hy]; exact hb
            · exact hall y hy
  · intro s h0
    simp only [TaskQueue.busy, Bool.or_eq_false_iff, decide_eq_false_iff_not, not_lt]
    constructor
    · rintro ⟨h1, h2⟩
      refine ⟨List.length_eq_zero.mp (by omega), by omega⟩
    · rintro ⟨h1, h2⟩
      exact ⟨by simp [h1], by omega⟩

/-- C9 witness: an idle queue returns with no sleeps; a busy-then-idle pair of
observations yields exactly one 100 ms sleep before returning at the first
idle check; and for the fresh (idle) state the guard is equivalent to
`pending = [] and running = 0`. -/
theorem drain_exactly_when_idle_witness :
    TaskQueue.drainPoll [TaskQueue.initState] = some [] ∧
    ([100] = List.replicate ([100] : List Nat).length 100 ∧
      ∃ pre x post,
        ([⟨[1], 0, [], [], []⟩, TaskQueue.initState] : List TQState) =
          pre ++ x :: post ∧
        pre.length = ([100] : List Nat).length ∧
        (∀ y ∈ pre, TaskQueue.busy y = true) ∧ TaskQueue.busy x = false) ∧
    (TaskQueue.busy TaskQueue.initState = false ↔
      (TaskQueue.initState.queue = [] ∧ TaskQueue.initState.running = 0)) := by
  refine ⟨?_, ?_, ?_⟩
  · exact drain_exactly_when_idle.1 TaskQueue.initState [] (by decide)
  · exact drain_exactly_when_idle.2.1
      [⟨[1], 0, [], [], []⟩, TaskQueue.initState] [100] (by decide)
  · exact drain_exactly_when_idle.2.2 TaskQueue.initState (by decide)
